import Mathlib

/-!
# SphereEngine: the icosphere generator

A shallow embedding of the mesh generator of `src/main.cpp`
(`Vec3::normalize`, `Vec3::operator+`, `createIcosahedronVertices`,
`createIcosahedronFaces`, `subdivide`, `createIcosphere` and the normal loop of
`main`), followed by the properties proved about it.

Modelling conventions.

* `float` is an abstract scalar type `F` carrying the operations the source
  uses (`+`, `*`, `/`, unary minus, numeric literals) and a square-root function
  `sqrt : F → F` passed explicitly.  Every definition is computable for a
  computable `F`.  Structural properties are proved for every `F`; metric
  properties are proved for `F = ℝ` with `Real.sqrt`, that is, for the exact
  real-number reading of the arithmetic.  `F32` is a model of IEEE-754 binary32
  restricted to its normal range (round to nearest, ties to even, every
  operation rounded separately), on which the definitions are evaluated.
* `std::vector<T>` is `List T`; `push_back` appends at the end.
* `int depth` is an unbounded `ℤ`.  For `depth ≥ 0` the recursion only visits
  `depth, depth - 1, …, 0`, so no machine overflow is involved.
* `subdivide` is recursive on a run-time value, so the model carries a `fuel`
  argument bounding the height of the call stack; `none` means the stack
  budget was exhausted before the call returned.  Out-of-range indexing of a
  vector (undefined behaviour in the source) is `none` as well.
-/

namespace SphereEngine

/-- The `struct Vec3 { float x, y, z; }` of `graphics.hpp`. -/
structure Vec3 (F : Type) where
  x : F
  y : F
  z : F
deriving DecidableEq

variable {F : Type}

/-- The method `Vec3 Vec3::normalize() const`:
`length = sqrt(x*x + y*y + z*z); return {x/length, y/length, z/length}`. -/
def Vec3.normalize [Add F] [Mul F] [Div F] (sqrt : F → F) (v : Vec3 F) : Vec3 F :=
  let length := sqrt (v.x * v.x + v.y * v.y + v.z * v.z)
  ⟨v.x / length, v.y / length, v.z / length⟩

/-- The method `Vec3 Vec3::operator+(const Vec3& other) const`. -/
def Vec3.add [Add F] (v other : Vec3 F) : Vec3 F :=
  ⟨v.x + other.x, v.y + other.y, v.z + other.z⟩

/-- The constant `t = (1.0f + sqrt(5.0f)) / 2.0f` of `createIcosahedronVertices`. -/
def goldenT [Add F] [Div F] [NatCast F] (sqrt : F → F) : F :=
  (((1 : ℕ) : F) + sqrt ((5 : ℕ) : F)) / ((2 : ℕ) : F)

/-- The initializer list of `createIcosahedronVertices`, before normalization. -/
def rawIcosahedronVertices [Neg F] [NatCast F] (t : F) : List (Vec3 F) :=
  let o : F := ((0 : ℕ) : F)
  let i : F := ((1 : ℕ) : F)
  [ ⟨-i, t, o⟩, ⟨i, t, o⟩, ⟨-i, -t, o⟩, ⟨i, -t, o⟩,
    ⟨o, -i, t⟩, ⟨o, i, t⟩, ⟨o, -i, -t⟩, ⟨o, i, -t⟩,
    ⟨t, o, -i⟩, ⟨t, o, i⟩, ⟨-t, o, -i⟩, ⟨-t, o, i⟩ ]

/-- The function `createIcosahedronVertices`: the twelve raw vertices, each
replaced by its `normalize()`. -/
def createIcosahedronVertices [Add F] [Mul F] [Div F] [Neg F] [NatCast F]
    (sqrt : F → F) : List (Vec3 F) :=
  (rawIcosahedronVertices (goldenT sqrt)).map (Vec3.normalize sqrt)

/-- The function `createIcosahedronFaces`. -/
def createIcosahedronFaces : List ℕ :=
  [ 0, 11, 5,  0, 5, 1,  0, 1, 7,  0, 7, 10,  0, 10, 11,
    1, 5, 9,  5, 11, 4,  11, 10, 2,  10, 7, 6,  7, 1, 8,
    3, 9, 4,  3, 4, 2,  3, 2, 6,  3, 6, 8,  3, 8, 9,
    4, 9, 5,  2, 4, 11,  6, 2, 10,  8, 6, 7,  9, 8, 1 ]

/-- The function `subdivide(vertices, v1, v2, v3, depth)`; the result is the
new contents of `vertices`.  `fuel` bounds the height of the call stack. -/
def subdivide [Add F] [Mul F] [Div F] (sqrt : F → F) :
    ℕ → List (Vec3 F) → Vec3 F → Vec3 F → Vec3 F → ℤ → Option (List (Vec3 F))
  | 0, _, _, _, _, _ => none
  | fuel + 1, vertices, v1, v2, v3, depth =>
    if depth = 0 then
      some (((vertices.concat v1).concat v2).concat v3)
    else
      let mid1 := (v1.add v2).normalize sqrt
      let mid2 := (v2.add v3).normalize sqrt
      let mid3 := (v3.add v1).normalize sqrt
      (subdivide sqrt fuel vertices v1 mid1 mid3 (depth - 1)).bind fun vertices =>
      (subdivide sqrt fuel vertices v2 mid2 mid1 (depth - 1)).bind fun vertices =>
      (subdivide sqrt fuel vertices v3 mid3 mid2 (depth - 1)).bind fun vertices =>
      subdivide sqrt fuel vertices mid1 mid2 mid3 (depth - 1)

/-- The loop `for (int i = 0; i < faces.size(); i += 3)` of `createIcosphere`,
entered at index `i` with the output accumulated so far. -/
def createIcosphereLoop [Add F] [Mul F] [Div F] (sqrt : F → F) (fuel : ℕ)
    (vertices : List (Vec3 F)) (faces : List ℕ) (subdivisions : ℤ)
    (i : ℕ) (subdividedVertices : List (Vec3 F)) : Option (List (Vec3 F)) :=
  if i < faces.length then
    (faces[i]?).bind fun a =>
    (faces[i + 1]?).bind fun b =>
    (faces[i + 2]?).bind fun c =>
    (vertices[a]?).bind fun v1 =>
    (vertices[b]?).bind fun v2 =>
    (vertices[c]?).bind fun v3 =>
    (subdivide sqrt fuel subdividedVertices v1 v2 v3 subdivisions).bind fun out =>
    createIcosphereLoop sqrt fuel vertices faces subdivisions (i + 3) out
  else
    some subdividedVertices
termination_by faces.length - i

/-- The function `createIcosphere(subdivisions)`. -/
def createIcosphere [Add F] [Mul F] [Div F] [Neg F] [NatCast F]
    (sqrt : F → F) (fuel : ℕ) (subdivisions : ℤ) : Option (List (Vec3 F)) :=
  createIcosphereLoop sqrt fuel (createIcosahedronVertices sqrt) createIcosahedronFaces
    subdivisions 0 []

/-- The three corners `vertices[faces[3j]], vertices[faces[3j+1]], vertices[faces[3j+2]]`
that the loop body of `createIcosphere` hands to `subdivide` for face `j`. -/
def seedTriangle (vertices : List (Vec3 F)) (faces : List ℕ) (j : ℕ) :
    Option (Vec3 F × Vec3 F × Vec3 F) :=
  (faces[3 * j]?).bind fun a =>
  (faces[3 * j + 1]?).bind fun b =>
  (faces[3 * j + 2]?).bind fun c =>
  (vertices[a]?).bind fun v1 =>
  (vertices[b]?).bind fun v2 =>
  (vertices[c]?).bind fun v3 =>
  some (v1, v2, v3)

/-- The subdivision of seed face `j` alone: the call of `subdivide` in the loop
body of `createIcosphere`, run on an empty output vector. -/
def subdivideFace [Add F] [Mul F] [Div F] (sqrt : F → F) (fuel : ℕ)
    (vertices : List (Vec3 F)) (faces : List ℕ) (subdivisions : ℤ) (j : ℕ) :
    Option (List (Vec3 F)) :=
  (seedTriangle vertices faces j).bind fun t =>
  subdivide sqrt fuel [] t.1 t.2.1 t.2.2 subdivisions

/-- The corner triples of all faces of a face table, in table order. -/
def seedTriangles (vertices : List (Vec3 F)) (faces : List ℕ) :
    List (Vec3 F × Vec3 F × Vec3 F) :=
  (List.range' 0 (faces.length / 3)).filterMap (seedTriangle vertices faces)

/-- The library function `glm::normalize` that the normal loop of `main` calls,
as the GLM headers define it for `vec3`: `v * inversesqrt(dot(v, v))`, with
`dot(v, v) = v.x*v.x + v.y*v.y + v.z*v.z` and `inversesqrt(x) = 1 / sqrt(x)`.
GLM is an external library, not part of the repository. -/
def glmNormalize [Add F] [Mul F] [Div F] [NatCast F] (sqrt : F → F) (v : Vec3 F) : Vec3 F :=
  let inversesqrt := ((1 : ℕ) : F) / sqrt (v.x * v.x + v.y * v.y + v.z * v.z)
  ⟨v.x * inversesqrt, v.y * inversesqrt, v.z * inversesqrt⟩

/-- The normal loop of `main`: every vertex of `icosphereVertices` is passed to
the vector normalizer and the result is pushed onto `icosphereNormals`.  The
normalizer (`glm::normalize`, a library function) is a parameter. -/
def icosphereNormals (normalize : Vec3 F → Vec3 F) (icosphereVertices : List (Vec3 F)) :
    List (Vec3 F) :=
  icosphereVertices.foldl (fun normals vertex => normals.concat (normalize vertex)) []

/-- A flat sequence read as consecutive triples: the index triples of a face
table, the triangles of a triangle soup. -/
def triples {α : Type} : List α → List (α × α × α)
  | a :: b :: c :: rest => (a, b, c) :: triples rest
  | _ => []

/-- The three directed edges of an index triple, taken cyclically. -/
def directedEdges (t : ℕ × ℕ × ℕ) : List (ℕ × ℕ) :=
  [(t.1, t.2.1), (t.2.1, t.2.2), (t.2.2, t.1)]

/-- The distinct unordered edges of a face table, each written smaller index
first. -/
def unorderedEdges (faces : List ℕ) : List (ℕ × ℕ) :=
  ((triples faces).flatMap fun t =>
    (directedEdges t).map fun e => (min e.1 e.2, max e.1 e.2)).dedup

/-- The triples of a face table that have `i` and `j` joined by an edge, in
either direction. -/
def facesOnEdge (faces : List ℕ) (i j : ℕ) : List (ℕ × ℕ × ℕ) :=
  (triples faces).filter fun t =>
    decide ((i, j) ∈ directedEdges t) || decide ((j, i) ∈ directedEdges t)

/-- The triples of a face table that have the directed edge `e` among their
cyclic edges. -/
def facesOnDirectedEdge (faces : List ℕ) (e : ℕ × ℕ) : List (ℕ × ℕ × ℕ) :=
  (triples faces).filter fun t => decide (e ∈ directedEdges t)

/-- The squared Euclidean length `x*x + y*y + z*z`, the argument of `sqrt` in
`Vec3::normalize`. -/
def Vec3.normSq [Add F] [Mul F] (v : Vec3 F) : F :=
  v.x * v.x + v.y * v.y + v.z * v.z

/-- The Euclidean length `‖v‖ = sqrt(x*x + y*y + z*z)`, the local `length` of
`Vec3::normalize`. -/
def Vec3.length [Add F] [Mul F] (sqrt : F → F) (v : Vec3 F) : F :=
  sqrt v.normSq

/-- The dot product. -/
def Vec3.dot [Add F] [Mul F] (a b : Vec3 F) : F :=
  a.x * b.x + a.y * b.y + a.z * b.z

/-- The componentwise difference. -/
def Vec3.sub [Sub F] (a b : Vec3 F) : Vec3 F :=
  ⟨a.x - b.x, a.y - b.y, a.z - b.z⟩

/-- The cross product. -/
def Vec3.cross [Sub F] [Mul F] (a b : Vec3 F) : Vec3 F :=
  ⟨a.y * b.z - a.z * b.y, a.z * b.x - a.x * b.z, a.x * b.y - a.y * b.x⟩

/-- The centroid `(a + b + c) / 3` of a triangle. -/
def centroid [Add F] [Div F] [NatCast F] (a b c : Vec3 F) : Vec3 F :=
  ⟨(a.x + b.x + c.x) / ((3 : ℕ) : F), (a.y + b.y + c.y) / ((3 : ℕ) : F),
    (a.z + b.z + c.z) / ((3 : ℕ) : F)⟩

/-- The triple product `a · (b × c)`, the determinant of the three vectors. -/
def Vec3.det [Add F] [Sub F] [Mul F] (a b c : Vec3 F) : F :=
  a.dot (b.cross c)

/-- Outward winding of a triangle: the geometric normal `(b - a) × (c - a)` has
a strictly positive dot product with the centroid. -/
def Outward (a b c : Vec3 ℝ) : Prop :=
  0 < ((b.sub a).cross (c.sub a)).dot (centroid a b c)

/-- The invariant of the subdivision over the reals: the corners are unit
vectors, pairwise at an acute angle, and positively oriented. -/
def Good (a b c : Vec3 ℝ) : Prop :=
  a.normSq = 1 ∧ b.normSq = 1 ∧ c.normSq = 1 ∧
  0 < a.dot b ∧ 0 < b.dot c ∧ 0 < c.dot a ∧ 0 < a.det b c

/-- Closed form of what `subdivide` appends at a depth `n ≥ 0`; a device of the
proofs below, see `subdivide_eq`. -/
def subdivision [Add F] [Mul F] [Div F] (sqrt : F → F) :
    ℕ → Vec3 F → Vec3 F → Vec3 F → List (Vec3 F)
  | 0, v1, v2, v3 => [v1, v2, v3]
  | n + 1, v1, v2, v3 =>
    subdivision sqrt n v1 ((v1.add v2).normalize sqrt) ((v3.add v1).normalize sqrt) ++
    (subdivision sqrt n v2 ((v2.add v3).normalize sqrt) ((v1.add v2).normalize sqrt) ++
    (subdivision sqrt n v3 ((v3.add v1).normalize sqrt) ((v2.add v3).normalize sqrt) ++
     subdivision sqrt n ((v1.add v2).normalize sqrt) ((v2.add v3).normalize sqrt)
       ((v3.add v1).normalize sqrt)))

/-- One level of the iterative refinement, in the words of the specification:
every triangle `(a, b, c)` of the soup is replaced, in order, by its four
one-step sub-triangles `(a, mab, mca)`, `(b, mbc, mab)`, `(c, mca, mbc)`,
`(mab, mbc, mca)`, the `m`s being the projected edge midpoints. -/
def refineLevel [Add F] [Mul F] [Div F] (sqrt : F → F) (soup : List (Vec3 F)) :
    List (Vec3 F) :=
  (triples soup).flatMap fun t =>
    let mab := (t.1.add t.2.1).normalize sqrt
    let mbc := (t.2.1.add t.2.2).normalize sqrt
    let mca := (t.2.2.add t.1).normalize sqrt
    [t.1, mab, mca, t.2.1, mbc, mab, t.2.2, mca, mbc, mab, mbc, mca]

/-- The iterative, level-by-level formulation of the subdivision, in the words
of the specification: `d` refinement levels applied to the input triangle. -/
def subdivideIterative [Add F] [Mul F] [Div F] (sqrt : F → F) :
    ℕ → Vec3 F → Vec3 F → Vec3 F → List (Vec3 F)
  | 0, v1, v2, v3 => [v1, v2, v3]
  | d + 1, v1, v2, v3 => refineLevel sqrt (subdivideIterative sqrt d v1 v2 v3)

/-- The function `subdivide` instrumented: the state is the output vector
together with the list, in call order, of the vectors on which `normalize()`
has been called (`v1 + v2`, `v2 + v3`, `v3 + v1` of every call with
`depth != 0`).  The first component is computed exactly as in `subdivide`. -/
def subdivideTraced [Add F] [Mul F] [Div F] (sqrt : F → F) :
    ℕ → List (Vec3 F) × List (Vec3 F) → Vec3 F → Vec3 F → Vec3 F → ℤ →
      Option (List (Vec3 F) × List (Vec3 F))
  | 0, _, _, _, _, _ => none
  | fuel + 1, s, v1, v2, v3, depth =>
    if depth = 0 then
      some ((((s.1).concat v1).concat v2).concat v3, s.2)
    else
      let normalized := (((s.2).concat (v1.add v2)).concat (v2.add v3)).concat (v3.add v1)
      let mid1 := (v1.add v2).normalize sqrt
      let mid2 := (v2.add v3).normalize sqrt
      let mid3 := (v3.add v1).normalize sqrt
      (subdivideTraced sqrt fuel (s.1, normalized) v1 mid1 mid3 (depth - 1)).bind fun s1 =>
      (subdivideTraced sqrt fuel s1 v2 mid2 mid1 (depth - 1)).bind fun s2 =>
      (subdivideTraced sqrt fuel s2 v3 mid3 mid2 (depth - 1)).bind fun s3 =>
      subdivideTraced sqrt fuel s3 mid1 mid2 mid3 (depth - 1)

/-- The function `createIcosphere` instrumented in the same way: the vectors
normalized by `createIcosahedronVertices` come first, then the seed faces are
subdivided in table order by `subdivideTraced`. -/
def createIcosphereTraced [Add F] [Mul F] [Div F] [Neg F] [NatCast F]
    (sqrt : F → F) (fuel : ℕ) (subdivisions : ℤ) :
    Option (List (Vec3 F) × List (Vec3 F)) :=
  (seedTriangles (createIcosahedronVertices sqrt) createIcosahedronFaces).foldlM
    (fun s t => subdivideTraced sqrt fuel s t.1 t.2.1 t.2.2 subdivisions)
    ([], rawIcosahedronVertices (goldenT sqrt))

/-- Closed form of the vectors that `subdivide` normalizes at a depth `n ≥ 0`;
a device of the proofs below, see `subdivideTraced_eq`. -/
def normalizedBy [Add F] [Mul F] [Div F] (sqrt : F → F) :
    ℕ → Vec3 F → Vec3 F → Vec3 F → List (Vec3 F)
  | 0, _, _, _ => []
  | n + 1, v1, v2, v3 =>
    [v1.add v2, v2.add v3, v3.add v1] ++
    (normalizedBy sqrt n v1 ((v1.add v2).normalize sqrt) ((v3.add v1).normalize sqrt) ++
    (normalizedBy sqrt n v2 ((v2.add v3).normalize sqrt) ((v1.add v2).normalize sqrt) ++
    (normalizedBy sqrt n v3 ((v3.add v1).normalize sqrt) ((v2.add v3).normalize sqrt) ++
     normalizedBy sqrt n ((v1.add v2).normalize sqrt) ((v2.add v3).normalize sqrt)
       ((v3.add v1).normalize sqrt))))

/-- A value of IEEE-754 binary32, the `float` of the source.  `finite s E M` is
the number `(-1)^s * M * 2^(E - 150)`: `E` is the biased exponent field and `M`
the 24-bit significand with its hidden bit, so a normal number has
`1 ≤ E ≤ 254` and `2^23 ≤ M < 2^24`, and zero is `E = 0`, `M = 0`.  Everything
outside the normal range (subnormal results, overflow, infinities, NaN) is
collapsed into `abnormal`. -/
inductive F32 where
  | finite (sign : Bool) (E M : ℕ)
  | abnormal
deriving DecidableEq

/-- The position of the leading bit of `n`, by at most `k` halvings. -/
def bitLog2Aux : ℕ → ℕ → ℕ
  | 0, _ => 0
  | k + 1, n => if n < 2 then 0 else bitLog2Aux k (n / 2) + 1

/-- The position of the leading bit of `n` (for `n < 2^320`). -/
def bitLog2 (n : ℕ) : ℕ := bitLog2Aux 320 n

/-- Rounding to binary32, to nearest with ties to even: the binary32 value
nearest to `(-1)^s * (n / d) * 2^(eb - 1000)`, for `n, d > 0`.  The quotient is
taken with 26 or 27 bits, then cut to 24 bits using the dropped bits and the
remainder. -/
def F32.round (s : Bool) (n d eb : ℕ) : F32 :=
  let a := bitLog2 n
  let b := bitLog2 d
  let N := if a ≤ 26 + b then n <<< (26 + b - a) else n
  let D := if a ≤ 26 + b then d else d <<< (a - (26 + b))
  let Q := N / D
  let R := N % D
  let drop := bitLog2 Q - 23
  let q := Q >>> drop
  let rest := Q % 2 ^ drop
  let half := 2 ^ (drop - 1)
  let up := decide (half < rest) ||
    (decide (rest = half) && (decide (R ≠ 0) || decide (q % 2 = 1)))
  let q1 := if up then q + 1 else q
  let q2 := if q1 = 2 ^ 24 then 2 ^ 23 else q1
  let c := if q1 = 2 ^ 24 then 1 else 0
  let hi := eb + a + drop + c + 150
  let lo := 1026 + b
  if lo < hi ∧ hi ≤ lo + 254 then F32.finite s (hi - lo) q2 else F32.abnormal

/-- Conversion of an integer literal to binary32. -/
def F32.ofNat (n : ℕ) : F32 :=
  if n = 0 then F32.finite false 0 0 else F32.round false n 1 1000

/-- Unary minus of binary32. -/
def F32.neg : F32 → F32
  | F32.finite s E M => F32.finite (!s) E M
  | F32.abnormal => F32.abnormal

/-- Multiplication of binary32, correctly rounded. -/
def F32.mul : F32 → F32 → F32
  | F32.finite s1 E1 M1, F32.finite s2 E2 M2 =>
    if M1 = 0 ∨ M2 = 0 then F32.finite (xor s1 s2) 0 0
    else F32.round (xor s1 s2) (M1 * M2) 1 (E1 + E2 + 700)
  | _, _ => F32.abnormal

/-- Division of binary32, correctly rounded; a zero divisor gives `abnormal`. -/
def F32.div : F32 → F32 → F32
  | F32.finite s1 E1 M1, F32.finite s2 E2 M2 =>
    if M2 = 0 then F32.abnormal
    else if M1 = 0 then F32.finite (xor s1 s2) 0 0
    else F32.round (xor s1 s2) M1 M2 (E1 + 1000 - E2)
  | _, _ => F32.abnormal

/-- Addition of binary32, correctly rounded. -/
def F32.add : F32 → F32 → F32
  | F32.finite s1 E1 M1, F32.finite s2 E2 M2 =>
    if M1 = 0 ∧ M2 = 0 then F32.finite (s1 && s2) 0 0
    else if M1 = 0 then F32.finite s2 E2 M2
    else if M2 = 0 then F32.finite s1 E1 M1
    else
      let e := min E1 E2
      let A := M1 <<< (E1 - e)
      let B := M2 <<< (E2 - e)
      if s1 = s2 then F32.round s1 (A + B) 1 (e + 850)
      else if A = B then F32.finite false 0 0
      else if B < A then F32.round s1 (A - B) 1 (e + 850)
      else F32.round s2 (B - A) 1 (e + 850)
  | _, _ => F32.abnormal

/-- The integer square root of `n < 4^k`, bit by bit from bit `k - 1` down. -/
def isqrtAux (n : ℕ) : ℕ → ℕ → ℕ
  | 0, r => r
  | k + 1, r =>
    if (r + 2 ^ k) * (r + 2 ^ k) ≤ n then isqrtAux n k (r + 2 ^ k) else isqrtAux n k r

/-- The square root of binary32, correctly rounded (the C library `sqrt`): the
significand, scaled to an even exponent and by `2^40`, has its integer square
root taken; a sticky bit records inexactness. -/
def F32.sqrt : F32 → F32
  | F32.finite s E M =>
    if M = 0 then F32.finite s 0 0
    else if s then F32.abnormal
    else
      let N := (if E % 2 = 0 then M else 2 * M) <<< 40
      let r := isqrtAux N 33 0
      let sticky := if r * r = N then 0 else 1
      F32.round false (2 * r + sticky) 1 (904 + E / 2)
  | F32.abnormal => F32.abnormal

/-- The 32-bit pattern of a binary32 value (`abnormal` shown as the default NaN). -/
def F32.bits : F32 → ℕ
  | F32.finite s E M => (if s then 2 ^ 31 else 0) + E * 2 ^ 23 + M % 2 ^ 23
  | F32.abnormal => 0x7fc00000

instance : Add F32 := ⟨F32.add⟩

instance : Mul F32 := ⟨F32.mul⟩

instance : Div F32 := ⟨F32.div⟩

instance : Neg F32 := ⟨F32.neg⟩

instance : NatCast F32 := ⟨F32.ofNat⟩

section Structural

variable [Add F] [Mul F] [Div F]

/-- With a stack budget above the depth, `subdivide` returns its input followed
by the closed form. -/
theorem subdivide_eq (sqrt : F → F) (n k : ℕ) :
    ∀ (out : List (Vec3 F)) (v1 v2 v3 : Vec3 F),
      subdivide sqrt (n + 1 + k) out v1 v2 v3 (n : ℤ)
        = some (out ++ subdivision sqrt n v1 v2 v3) := by
  induction n with
  | zero =>
    intro out v1 v2 v3
    have : 0 + 1 + k = k + 1 := by omega
    rw [this]
    simp [subdivide, subdivision]
  | succ n ih =>
    intro out v1 v2 v3
    have h1 : n + 1 + 1 + k = (n + 1 + k) + 1 := by omega
    have h2 : ((n + 1 : ℕ) : ℤ) ≠ 0 := by omega
    have h3 : ((n + 1 : ℕ) : ℤ) - 1 = (n : ℤ) := by omega
    rw [h1, subdivide, if_neg h2, h3]
    simp [ih, subdivision, List.append_assoc]

theorem subdivision_length (sqrt : F → F) (n : ℕ) :
    ∀ v1 v2 v3 : Vec3 F, (subdivision sqrt n v1 v2 v3).length = 3 * 4 ^ n := by
  induction n with
  | zero => intro v1 v2 v3; simp [subdivision]
  | succ n ih =>
    intro v1 v2 v3
    simp only [subdivision, List.length_append, ih]
    ring

/-- The loop body at an index inside the face table. -/
theorem createIcosphereLoop_step (sqrt : F → F) (fuel : ℕ) (vertices : List (Vec3 F))
    (faces : List ℕ) (d : ℤ) (i : ℕ) (out : List (Vec3 F)) (h : i < faces.length) :
    createIcosphereLoop sqrt fuel vertices faces d i out =
      (faces[i]?).bind fun a =>
      (faces[i + 1]?).bind fun b =>
      (faces[i + 2]?).bind fun c =>
      (vertices[a]?).bind fun v1 =>
      (vertices[b]?).bind fun v2 =>
      (vertices[c]?).bind fun v3 =>
      (subdivide sqrt fuel out v1 v2 v3 d).bind fun out1 =>
      createIcosphereLoop sqrt fuel vertices faces d (i + 3) out1 := by
  rw [createIcosphereLoop, if_pos h]

/-- The loop exit. -/
theorem createIcosphereLoop_done (sqrt : F → F) (fuel : ℕ) (vertices : List (Vec3 F))
    (faces : List ℕ) (d : ℤ) (i : ℕ) (out : List (Vec3 F)) (h : ¬ i < faces.length) :
    createIcosphereLoop sqrt fuel vertices faces d i out = some out := by
  rw [createIcosphereLoop, if_neg h]

/-- Frame property of `subdivide`, for every stack budget and every depth:
the call on `out` is the call on the empty vector with `out` put in front. -/
theorem subdivide_frame (sqrt : F → F) (fuel : ℕ) :
    ∀ (out : List (Vec3 F)) (v1 v2 v3 : Vec3 F) (depth : ℤ),
      subdivide sqrt fuel out v1 v2 v3 depth
        = (subdivide sqrt fuel [] v1 v2 v3 depth).map (fun r => out ++ r) := by
  induction fuel with
  | zero => intro out v1 v2 v3 depth; simp [subdivide]
  | succ fuel ih =>
    intro out v1 v2 v3 depth
    rw [subdivide, subdivide]
    by_cases h : depth = 0
    · simp [h]
    · simp only [if_neg h]
      rw [ih out]
      cases h1 : subdivide sqrt fuel [] v1 ((v1.add v2).normalize sqrt)
          ((v3.add v1).normalize sqrt) (depth - 1) with
      | none => simp
      | some r1 =>
        simp only [Option.map_some', Option.some_bind]
        rw [ih (out ++ r1), ih r1]
        cases h2 : subdivide sqrt fuel [] v2 ((v2.add v3).normalize sqrt)
            ((v1.add v2).normalize sqrt) (depth - 1) with
        | none => simp
        | some r2 =>
          simp only [Option.map_some', Option.some_bind]
          rw [ih (out ++ r1 ++ r2), ih (r1 ++ r2)]
          cases h3 : subdivide sqrt fuel [] v3 ((v3.add v1).normalize sqrt)
              ((v2.add v3).normalize sqrt) (depth - 1) with
          | none => simp
          | some r3 =>
            simp only [Option.map_some', Option.some_bind]
            rw [ih (out ++ r1 ++ r2 ++ r3), ih (r1 ++ r2 ++ r3)]
            cases h4 : subdivide sqrt fuel [] ((v1.add v2).normalize sqrt)
                ((v2.add v3).normalize sqrt) ((v3.add v1).normalize sqrt) (depth - 1) with
            | none => simp
            | some r4 => simp [List.append_assoc]

/-- One iteration of the loop of `createIcosphere`, expressed with the
stand-alone subdivision of the face it handles. -/
theorem createIcosphereLoop_face (sqrt : F → F) (fuel : ℕ) (vertices : List (Vec3 F))
    (faces : List ℕ) (d : ℤ) (j : ℕ) (out : List (Vec3 F)) (h : 3 * j < faces.length) :
    createIcosphereLoop sqrt fuel vertices faces d (3 * j) out =
      (subdivideFace sqrt fuel vertices faces d j).bind fun r =>
        createIcosphereLoop sqrt fuel vertices faces d (3 * (j + 1)) (out ++ r) := by
  rw [createIcosphereLoop_step sqrt fuel vertices faces d (3 * j) out h, subdivideFace,
    seedTriangle]
  have e : 3 * (j + 1) = 3 * j + 3 := by ring
  rw [e]
  cases faces[3 * j]? with
  | none => rfl
  | some a =>
    cases faces[3 * j + 1]? with
    | none => rfl
    | some b =>
      cases faces[3 * j + 2]? with
      | none => rfl
      | some c =>
        simp only [Option.some_bind]
        cases vertices[a]? with
        | none => rfl
        | some v1 =>
          cases vertices[b]? with
          | none => rfl
          | some v2 =>
            cases vertices[c]? with
            | none => rfl
            | some v3 =>
              simp only [Option.some_bind]
              rw [subdivide_frame sqrt fuel out]
              cases subdivide sqrt fuel [] v1 v2 v3 d <;> rfl

/-- The loop of `createIcosphere` over a face table of `3 * n` entries, from
face `j` on, is the sequence of the stand-alone face subdivisions appended to
the output accumulated so far. -/
theorem createIcosphereLoop_eq (sqrt : F → F) (fuel : ℕ) (vertices : List (Vec3 F))
    (faces : List ℕ) (d : ℤ) (n : ℕ) (hlen : faces.length = 3 * n) :
    ∀ (m j : ℕ) (out : List (Vec3 F)), j + m = n →
      createIcosphereLoop sqrt fuel vertices faces d (3 * j) out =
        ((List.range' j m).mapM (subdivideFace sqrt fuel vertices faces d)).map
          (fun rs => out ++ rs.flatten) := by
  intro m
  induction m with
  | zero =>
    intro j out hj
    rw [createIcosphereLoop_done sqrt fuel vertices faces d (3 * j) out (by omega)]
    rw [List.range'_zero, List.mapM_nil]
    simp
  | succ m ih =>
    intro j out hj
    rw [createIcosphereLoop_face sqrt fuel vertices faces d j out (by omega)]
    rw [List.range'_succ, List.mapM_cons]
    cases subdivideFace sqrt fuel vertices faces d j with
    | none => rfl
    | some r =>
      simp only [Option.some_bind, Option.bind_eq_bind]
      rw [ih (j + 1) (out ++ r) (by omega)]
      cases List.mapM (subdivideFace sqrt fuel vertices faces d) (List.range' (j + 1) m) with
      | none => rfl
      | some rs => simp [List.append_assoc]

/-- With a stack budget above the depth, the faces whose corners exist are
subdivided into the closed form. -/
theorem mapM_subdivideFace (sqrt : F → F) (vertices : List (Vec3 F)) (faces : List ℕ)
    (d k : ℕ) :
    ∀ l : List ℕ, (∀ j ∈ l, (seedTriangle vertices faces j).isSome) →
      l.mapM (subdivideFace sqrt (d + 1 + k) vertices faces (d : ℤ)) =
        some ((l.filterMap (seedTriangle vertices faces)).map
          fun t => subdivision sqrt d t.1 t.2.1 t.2.2) := by
  intro l
  induction l with
  | nil => intro _; rw [List.mapM_nil]; rfl
  | cons j l ih =>
    intro h
    have hj := h j (List.mem_cons_self j l)
    have hl := ih (fun i hi => h i (List.mem_cons_of_mem j hi))
    rw [List.mapM_cons, hl]
    cases ht : seedTriangle vertices faces j with
    | none => rw [ht] at hj; cases hj
    | some t =>
      simp [subdivideFace, ht, subdivide_eq, List.filterMap_cons]

/-- Length of the concatenated closed forms of a list of triangles. -/
theorem subdivision_flatten_length (sqrt : F → F) (d : ℕ)
    (ts : List (Vec3 F × Vec3 F × Vec3 F)) :
    ((ts.map fun t => subdivision sqrt d t.1 t.2.1 t.2.2).flatten).length
      = ts.length * (3 * 4 ^ d) := by
  induction ts with
  | nil => simp
  | cons t ts ih =>
    simp only [List.map_cons, List.flatten_cons, List.length_append, List.length_cons, ih,
      subdivision_length]
    ring

/-- A negative depth never reaches the base case: whatever the stack budget,
the call does not return. -/
theorem subdivide_neg (sqrt : F → F) (fuel : ℕ) :
    ∀ (out : List (Vec3 F)) (v1 v2 v3 : Vec3 F) (depth : ℤ), depth < 0 →
      subdivide sqrt fuel out v1 v2 v3 depth = none := by
  induction fuel with
  | zero => intro out v1 v2 v3 depth _; rfl
  | succ fuel ih =>
    intro out v1 v2 v3 depth h
    have h0 : depth ≠ 0 := by omega
    rw [subdivide, if_neg h0]
    simp only
    rw [ih out _ _ _ (depth - 1) (by omega)]
    rfl

/-- C2. The recursion of `subdivide`: at depth 0 it appends `v1, v2, v3` in
that order; at depth `n + 1` it appends, in this order, what it appends at
depth `n` for `(v1, m12, m31)`, `(v2, m23, m12)`, `(v3, m31, m23)` and
`(m12, m23, m31)`, where `m12 = normalize(v1+v2)`, `m23 = normalize(v2+v3)`,
`m31 = normalize(v3+v1)`.  All five calls return when the stack budget is
above the depth. -/
theorem subdivide_recursion (sqrt : F → F) (n k : ℕ) (out : List (Vec3 F))
    (v1 v2 v3 : Vec3 F) :
    subdivide sqrt (k + 1) out v1 v2 v3 0 = some (out ++ [v1, v2, v3]) ∧
    ∃ r1 r2 r3 r4,
      subdivide sqrt (n + 1 + k) [] v1 ((v1.add v2).normalize sqrt)
        ((v3.add v1).normalize sqrt) (n : ℤ) = some r1 ∧
      subdivide sqrt (n + 1 + k) [] v2 ((v2.add v3).normalize sqrt)
        ((v1.add v2).normalize sqrt) (n : ℤ) = some r2 ∧
      subdivide sqrt (n + 1 + k) [] v3 ((v3.add v1).normalize sqrt)
        ((v2.add v3).normalize sqrt) (n : ℤ) = some r3 ∧
      subdivide sqrt (n + 1 + k) [] ((v1.add v2).normalize sqrt)
        ((v2.add v3).normalize sqrt) ((v3.add v1).normalize sqrt) (n : ℤ) = some r4 ∧
      subdivide sqrt (n + 2 + k) out v1 v2 v3 ((n : ℤ) + 1)
        = some (out ++ (r1 ++ (r2 ++ (r3 ++ r4)))) := by
  constructor
  · simp [subdivide]
  · refine ⟨subdivision sqrt n v1 ((v1.add v2).normalize sqrt) ((v3.add v1).normalize sqrt),
      subdivision sqrt n v2 ((v2.add v3).normalize sqrt) ((v1.add v2).normalize sqrt),
      subdivision sqrt n v3 ((v3.add v1).normalize sqrt) ((v2.add v3).normalize sqrt),
      subdivision sqrt n ((v1.add v2).normalize sqrt) ((v2.add v3).normalize sqrt)
        ((v3.add v1).normalize sqrt), ?_, ?_, ?_, ?_, ?_⟩
    · rw [subdivide_eq]; rfl
    · rw [subdivide_eq]; rfl
    · rw [subdivide_eq]; rfl
    · rw [subdivide_eq]; rfl
    · have h := subdivide_eq sqrt (n + 1) k out v1 v2 v3
      rw [Nat.cast_succ] at h
      rw [show n + 2 + k = n + 1 + 1 + k by ring, h]
      rfl

end Structural

section Seed

variable [Add F] [Mul F] [Div F] [Neg F] [NatCast F]

/-- Every face of the seed table has its three corners in the seed vertex table. -/
theorem seedTriangle_isSome (sqrt : F → F) (j : ℕ) (hj : j < 20) :
    (seedTriangle (createIcosahedronVertices sqrt) createIcosahedronFaces j).isSome := by
  interval_cases j <;>
    simp [seedTriangle, createIcosahedronFaces, createIcosahedronVertices,
      rawIcosahedronVertices]

/-- Closed form of `createIcosphere` at a depth `d ≥ 0` with a stack budget
above `d`. -/
theorem createIcosphere_eq (sqrt : F → F) (d k : ℕ) :
    createIcosphere sqrt (d + 1 + k) (d : ℤ) =
      some (((seedTriangles (createIcosahedronVertices sqrt) createIcosahedronFaces).map
        fun t => subdivision sqrt d t.1 t.2.1 t.2.2).flatten) := by
  have h := createIcosphereLoop_eq sqrt (d + 1 + k) (createIcosahedronVertices sqrt)
    createIcosahedronFaces (d : ℤ) 20 rfl 20 0 [] rfl
  rw [createIcosphere, h, mapM_subdivideFace]
  · rfl
  · intro j hj
    rw [List.mem_range'_1] at hj
    exact seedTriangle_isSome sqrt j (by omega)

/-- The seed face table yields twenty corner triples. -/
theorem seedTriangles_length (sqrt : F → F) :
    (seedTriangles (createIcosahedronVertices sqrt) createIcosahedronFaces).length = 20 := by
  simp [seedTriangles, seedTriangle, createIcosahedronFaces, createIcosahedronVertices,
    rawIcosahedronVertices, List.range']

/-- C1. For every depth `d ≥ 0` and every stack budget above `d`,
`createIcosphere(d)` returns, and what it returns has exactly `60 * 4^d`
vertices, that is `20 * 4^d` triangles; in particular 60, 240 and 960 vertices
at depths 0, 1 and 2. -/
theorem createIcosphere_length (sqrt : F → F) (d k : ℕ) :
    ∃ out, createIcosphere sqrt (d + 1 + k) (d : ℤ) = some out ∧
      out.length = 60 * 4 ^ d ∧ out.length = 3 * (20 * 4 ^ d) := by
  refine ⟨_, createIcosphere_eq sqrt d k, ?_, ?_⟩
  · rw [subdivision_flatten_length, seedTriangles_length]; ring
  · rw [subdivision_flatten_length, seedTriangles_length]; ring

/-- At depth 0 `createIcosphere` returns the seed vertices selected by the face
table, entry by entry. -/
theorem createIcosphere_depth0_map (sqrt : F → F) (k : ℕ) :
    ∃ out, createIcosphere sqrt (k + 1) 0 = some out ∧
      out.map some =
        createIcosahedronFaces.map fun i => (createIcosahedronVertices sqrt)[i]? := by
  have h := createIcosphere_eq sqrt 0 k
  rw [Nat.zero_add, Nat.add_comm 1 k, Nat.cast_zero] at h
  refine ⟨_, h, ?_⟩
  simp [seedTriangles, seedTriangle, createIcosahedronFaces, createIcosahedronVertices,
    rawIcosahedronVertices, List.range', subdivision]

/-- C3. At depth 0 the icosphere is the seed mesh expanded into a triangle
soup: `createIcosphere(0)` returns 60 vertices, entry `i` is
`createIcosahedronVertices()[createIcosahedronFaces()[i]]` for every `i < 60`,
and the first triangle is made of seed vertices 0, 11 and 5. -/
theorem createIcosphere_zero (sqrt : F → F) (k : ℕ) :
    ∃ out, createIcosphere sqrt (k + 1) 0 = some out ∧ out.length = 60 ∧
      (∀ i : Fin 60, ∃ a v, createIcosahedronFaces[i.val]? = some a ∧
        (createIcosahedronVertices sqrt)[a]? = some v ∧ out[i.val]? = some v) ∧
      (∃ s0 s11 s5, (createIcosahedronVertices sqrt)[0]? = some s0 ∧
        (createIcosahedronVertices sqrt)[11]? = some s11 ∧
        (createIcosahedronVertices sqrt)[5]? = some s5 ∧ out.take 3 = [s0, s11, s5]) := by
  obtain ⟨out, h1, h2⟩ := createIcosphere_depth0_map sqrt k
  have hlen : out.length = 60 := by
    have := congrArg List.length h2
    simpa [createIcosahedronFaces] using this
  have hget : ∀ i : ℕ, (out[i]?).map some =
      (createIcosahedronFaces[i]?).map fun a => (createIcosahedronVertices sqrt)[a]? := by
    intro i
    rw [← List.getElem?_map, ← List.getElem?_map, h2]
  refine ⟨out, h1, hlen, ?_, ?_⟩
  · intro i
    have hi : i.val < createIcosahedronFaces.length := i.isLt
    have ho : i.val < out.length := by rw [hlen]; exact i.isLt
    have hg := hget i.val
    rw [List.getElem?_eq_getElem hi, List.getElem?_eq_getElem ho] at hg
    simp only [Option.map_some', Option.some.injEq] at hg
    exact ⟨_, _, List.getElem?_eq_getElem hi, hg.symm, List.getElem?_eq_getElem ho⟩
  · have h0 := hget 0
    have h1 := hget 1
    have h2 := hget 2
    match out, hlen, h0, h1, h2 with
    | a :: b :: c :: rest, _, h0, h1, h2 =>
      simp [createIcosahedronFaces] at h0 h1 h2
      exact ⟨a, b, c, h0.symm, h1.symm, h2.symm, rfl⟩

/-- C10. `subdivide` only appends: for every depth `d ≥ 0` the result on `out`
is `out` followed by the result on the empty vector, so the entries of `out`
are unchanged; and `createIcosphere(d)` is the concatenation, in face order, of
the twenty stand-alone face subdivisions at depth `d`. -/
theorem subdivide_only_appends (sqrt : F → F) (d k : ℕ) (out : List (Vec3 F))
    (v1 v2 v3 : Vec3 F) :
    (∃ r, subdivide sqrt (d + 1 + k) [] v1 v2 v3 (d : ℤ) = some r ∧
      subdivide sqrt (d + 1 + k) out v1 v2 v3 (d : ℤ) = some (out ++ r)) ∧
    (∃ rs, (List.range' 0 20).mapM (subdivideFace sqrt (d + 1 + k)
        (createIcosahedronVertices sqrt) createIcosahedronFaces (d : ℤ)) = some rs ∧
      rs.length = 20 ∧
      createIcosphere sqrt (d + 1 + k) (d : ℤ) = some rs.flatten) := by
  constructor
  · exact ⟨_, by rw [subdivide_eq]; rfl, subdivide_eq sqrt d k out v1 v2 v3⟩
  · have hm := mapM_subdivideFace sqrt (createIcosahedronVertices sqrt)
      createIcosahedronFaces d k (List.range' 0 20) (by
        intro j hj
        rw [List.mem_range'_1] at hj
        exact seedTriangle_isSome sqrt j (by omega))
    refine ⟨_, hm, ?_, ?_⟩
    · rw [List.length_map]
      exact seedTriangles_length sqrt
    · exact createIcosphere_eq sqrt d k

/-- C8, as the code behaves. For a negative depth the test `depth == 0` never
succeeds: `subdivide` does not return for any stack budget, and neither does
`createIcosphere`; in particular the result is not that of depth 0. -/
theorem subdivide_negative_depth (sqrt : F → F) (fuel : ℕ) (out : List (Vec3 F))
    (v1 v2 v3 : Vec3 F) (depth : ℤ) (h : depth < 0) :
    subdivide sqrt fuel out v1 v2 v3 depth = none ∧
    createIcosphere sqrt fuel depth = none ∧
    createIcosphere sqrt (fuel + 1) depth ≠ createIcosphere sqrt (fuel + 1) 0 := by
  have hc : ∀ f : ℕ, createIcosphere sqrt f depth = none := by
    intro f
    rw [createIcosphere, createIcosphereLoop_face sqrt f _ _ depth 0 [] (by decide),
      subdivideFace]
    cases seedTriangle (createIcosahedronVertices sqrt) createIcosahedronFaces 0 with
    | none => rfl
    | some t => simp [subdivide_neg sqrt f _ _ _ _ depth h]
  refine ⟨subdivide_neg sqrt fuel out v1 v2 v3 depth h, hc fuel, ?_⟩
  obtain ⟨o, ho, _⟩ := createIcosphere_depth0_map sqrt fuel
  rw [hc, ho]
  exact fun e => by cases e

/-- Instance of `subdivide_negative_depth` at depth `-1` over the rationals. -/
theorem subdivide_negative_depth_witness :
    (-1 : ℤ) < 0 ∧
    subdivide Rat.sqrt 7 [] (⟨1, 0, 0⟩ : Vec3 ℚ) ⟨0, 1, 0⟩ ⟨0, 0, 1⟩ (-1) = none ∧
    createIcosphere Rat.sqrt 7 (-1) = none ∧
    createIcosphere Rat.sqrt (7 + 1) (-1) ≠ createIcosphere Rat.sqrt (7 + 1) 0 :=
  ⟨by decide, subdivide_negative_depth Rat.sqrt 7 [] ⟨1, 0, 0⟩ ⟨0, 1, 0⟩ ⟨0, 0, 1⟩ (-1)
    (by decide)⟩

end Seed


section FaceTable

/-- C6. `createIcosahedronFaces()` has exactly 60 entries, every entry is below
12, and its 20 triples form a closed surface: there are exactly 30 distinct
unordered edges and each of them lies on exactly two triples. -/
theorem createIcosahedronFaces_closed :
    createIcosahedronFaces.length = 60 ∧
    (∀ a ∈ createIcosahedronFaces, a < 12) ∧
    (triples createIcosahedronFaces).length = 20 ∧
    (unorderedEdges createIcosahedronFaces).length = 30 ∧
    (∀ e ∈ unorderedEdges createIcosahedronFaces,
      (facesOnEdge createIcosahedronFaces e.1 e.2).length = 2) := by
  decide

/-- C7. Every triple of `createIcosahedronFaces()` names three distinct
indices, every directed edge taken cyclically from a triple lies on that triple
only, and the reversed edge lies on exactly one triple, a different one. -/
theorem createIcosahedronFaces_oriented :
    ∀ t ∈ triples createIcosahedronFaces,
      (t.1 ≠ t.2.1 ∧ t.2.1 ≠ t.2.2 ∧ t.2.2 ≠ t.1) ∧
      ∀ e ∈ directedEdges t,
        facesOnDirectedEdge createIcosahedronFaces e = [t] ∧
        ∃ u ∈ triples createIcosahedronFaces, u ≠ t ∧
          facesOnDirectedEdge createIcosahedronFaces (e.2, e.1) = [u] := by
  decide

/-- Instance of `createIcosahedronFaces_oriented` at the first face `(0, 11, 5)`. -/
theorem createIcosahedronFaces_oriented_witness :
    ∃ t : ℕ × ℕ × ℕ, t = (0, 11, 5) ∧ t ∈ triples createIcosahedronFaces ∧
      ((t.1 ≠ t.2.1 ∧ t.2.1 ≠ t.2.2 ∧ t.2.2 ≠ t.1) ∧
      ∀ e ∈ directedEdges t,
        facesOnDirectedEdge createIcosahedronFaces e = [t] ∧
        ∃ u ∈ triples createIcosahedronFaces, u ≠ t ∧
          facesOnDirectedEdge createIcosahedronFaces (e.2, e.1) = [u]) :=
  ⟨(0, 11, 5), rfl, by decide, createIcosahedronFaces_oriented (0, 11, 5) (by decide)⟩

end FaceTable

section Metric

theorem normalize_normSq (v : Vec3 ℝ) (h : 0 < v.normSq) :
    (v.normalize Real.sqrt).normSq = 1 := by
  have hL : 0 < Real.sqrt v.normSq := Real.sqrt_pos.mpr h
  have hLL : Real.sqrt v.normSq * Real.sqrt v.normSq = v.normSq := Real.mul_self_sqrt h.le
  simp only [Vec3.normalize, Vec3.normSq] at *
  field_simp

theorem normalize_unit (v : Vec3 ℝ) (h : v.normSq = 1) : v.normalize Real.sqrt = v := by
  have : Real.sqrt (v.x * v.x + v.y * v.y + v.z * v.z) = 1 := by
    simp only [Vec3.normSq] at h
    rw [h, Real.sqrt_one]
  cases v
  simp only [Vec3.normalize] at *
  rw [this]
  simp

theorem dot_normalize_right (a w : Vec3 ℝ) :
    a.dot (w.normalize Real.sqrt) = a.dot w / w.length Real.sqrt := by
  simp only [Vec3.dot, Vec3.normalize, Vec3.length, Vec3.normSq]
  ring

theorem dot_normalize_left (w a : Vec3 ℝ) :
    (w.normalize Real.sqrt).dot a = w.dot a / w.length Real.sqrt := by
  simp only [Vec3.dot, Vec3.normalize, Vec3.length, Vec3.normSq]
  ring

theorem dot_normalize_normalize (u w : Vec3 ℝ) :
    (u.normalize Real.sqrt).dot (w.normalize Real.sqrt)
      = u.dot w / (u.length Real.sqrt * w.length Real.sqrt) := by
  simp only [Vec3.dot, Vec3.normalize, Vec3.length, Vec3.normSq]
  ring

theorem det_normalize_two (a v w : Vec3 ℝ) :
    a.det (v.normalize Real.sqrt) (w.normalize Real.sqrt)
      = a.det v w / (v.length Real.sqrt * w.length Real.sqrt) := by
  simp only [Vec3.det, Vec3.cross, Vec3.dot, Vec3.normalize, Vec3.length, Vec3.normSq]
  ring

theorem det_normalize_three (u v w : Vec3 ℝ) :
    (u.normalize Real.sqrt).det (v.normalize Real.sqrt) (w.normalize Real.sqrt)
      = u.det v w / (u.length Real.sqrt * v.length Real.sqrt * w.length Real.sqrt) := by
  simp only [Vec3.det, Vec3.cross, Vec3.dot, Vec3.normalize, Vec3.length, Vec3.normSq]
  ring

theorem length_pos (v : Vec3 ℝ) (h : 0 < v.normSq) : 0 < v.length Real.sqrt :=
  Real.sqrt_pos.mpr h

theorem normSq_add (a b : Vec3 ℝ) (ha : a.normSq = 1) (hb : b.normSq = 1) :
    (a.add b).normSq = 2 + 2 * a.dot b := by
  simp only [Vec3.normSq, Vec3.add, Vec3.dot] at *
  linear_combination ha + hb

/-- One refinement step preserves the invariant on all four sub-triangles. -/
theorem Good.step {a b c : Vec3 ℝ} (h : Good a b c) :
    Good a ((a.add b).normalize Real.sqrt) ((c.add a).normalize Real.sqrt) ∧
    Good b ((b.add c).normalize Real.sqrt) ((a.add b).normalize Real.sqrt) ∧
    Good c ((c.add a).normalize Real.sqrt) ((b.add c).normalize Real.sqrt) ∧
    Good ((a.add b).normalize Real.sqrt) ((b.add c).normalize Real.sqrt)
      ((c.add a).normalize Real.sqrt) := by
  obtain ⟨ha, hb, hc, hab, hbc, hca, hd⟩ := h
  have sab : 0 < (a.add b).normSq := by rw [normSq_add a b ha hb]; linarith
  have sbc : 0 < (b.add c).normSq := by rw [normSq_add b c hb hc]; linarith
  have sca : 0 < (c.add a).normSq := by rw [normSq_add c a hc ha]; linarith
  have lab := length_pos _ sab
  have lbc := length_pos _ sbc
  have lca := length_pos _ sca
  have uab := normalize_normSq _ sab
  have ubc := normalize_normSq _ sbc
  have uca := normalize_normSq _ sca
  have e1 : a.dot (a.add b) = 1 + a.dot b := by
    simp only [Vec3.normSq, Vec3.add, Vec3.dot] at *; linear_combination ha
  have e2 : b.dot (b.add c) = 1 + b.dot c := by
    simp only [Vec3.normSq, Vec3.add, Vec3.dot] at *; linear_combination hb
  have e3 : c.dot (c.add a) = 1 + c.dot a := by
    simp only [Vec3.normSq, Vec3.add, Vec3.dot] at *; linear_combination hc
  have e4 : (c.add a).dot a = 1 + c.dot a := by
    simp only [Vec3.normSq, Vec3.add, Vec3.dot] at *; linear_combination ha
  have e5 : (a.add b).dot b = 1 + a.dot b := by
    simp only [Vec3.normSq, Vec3.add, Vec3.dot] at *; linear_combination hb
  have e6 : (b.add c).dot c = 1 + b.dot c := by
    simp only [Vec3.normSq, Vec3.add, Vec3.dot] at *; linear_combination hc
  have f1 : (a.add b).dot (c.add a) = 1 + a.dot b + b.dot c + c.dot a := by
    simp only [Vec3.normSq, Vec3.add, Vec3.dot] at *; linear_combination ha
  have f2 : (b.add c).dot (a.add b) = 1 + a.dot b + b.dot c + c.dot a := by
    simp only [Vec3.normSq, Vec3.add, Vec3.dot] at *; linear_combination hb
  have f3 : (c.add a).dot (b.add c) = 1 + a.dot b + b.dot c + c.dot a := by
    simp only [Vec3.normSq, Vec3.add, Vec3.dot] at *; linear_combination hc
  have f4 : (a.add b).dot (b.add c) = 1 + a.dot b + b.dot c + c.dot a := by
    simp only [Vec3.normSq, Vec3.add, Vec3.dot] at *; linear_combination hb
  have f5 : (b.add c).dot (c.add a) = 1 + a.dot b + b.dot c + c.dot a := by
    simp only [Vec3.normSq, Vec3.add, Vec3.dot] at *; linear_combination hc
  have f6 : (c.add a).dot (a.add b) = 1 + a.dot b + b.dot c + c.dot a := by
    simp only [Vec3.normSq, Vec3.add, Vec3.dot] at *; linear_combination ha
  have g1 : a.det (a.add b) (c.add a) = a.det b c := by
    simp only [Vec3.det, Vec3.cross, Vec3.add, Vec3.dot]; ring
  have g2 : b.det (b.add c) (a.add b) = a.det b c := by
    simp only [Vec3.det, Vec3.cross, Vec3.add, Vec3.dot]; ring
  have g3 : c.det (c.add a) (b.add c) = a.det b c := by
    simp only [Vec3.det, Vec3.cross, Vec3.add, Vec3.dot]; ring
  have g4 : (a.add b).det (b.add c) (c.add a) = 2 * a.det b c := by
    simp only [Vec3.det, Vec3.cross, Vec3.add, Vec3.dot]; ring
  refine ⟨⟨ha, uab, uca, ?_, ?_, ?_, ?_⟩, ⟨hb, ubc, uab, ?_, ?_, ?_, ?_⟩,
    ⟨hc, uca, ubc, ?_, ?_, ?_, ?_⟩, ⟨uab, ubc, uca, ?_, ?_, ?_, ?_⟩⟩
  · rw [dot_normalize_right, e1]; positivity
  · rw [dot_normalize_normalize, f1]; positivity
  · rw [dot_normalize_left, e4]; positivity
  · rw [det_normalize_two, g1]; positivity
  · rw [dot_normalize_right, e2]; positivity
  · rw [dot_normalize_normalize, f2]; positivity
  · rw [dot_normalize_left, e5]; positivity
  · rw [det_normalize_two, g2]; positivity
  · rw [dot_normalize_right, e3]; positivity
  · rw [dot_normalize_normalize, f3]; positivity
  · rw [dot_normalize_left, e6]; positivity
  · rw [det_normalize_two, g3]; positivity
  · rw [dot_normalize_normalize, f4]; positivity
  · rw [dot_normalize_normalize, f5]; positivity
  · rw [dot_normalize_normalize, f6]; positivity
  · rw [det_normalize_three, g4]; positivity

theorem Good.normalize {u v w : Vec3 ℝ} (hu : 0 < u.normSq) (hv : 0 < v.normSq)
    (hw : 0 < w.normSq) (huv : 0 < u.dot v) (hvw : 0 < v.dot w) (hwu : 0 < w.dot u)
    (hd : 0 < u.det v w) :
    Good (u.normalize Real.sqrt) (v.normalize Real.sqrt) (w.normalize Real.sqrt) := by
  have lu := length_pos _ hu
  have lv := length_pos _ hv
  have lw := length_pos _ hw
  refine ⟨normalize_normSq _ hu, normalize_normSq _ hv, normalize_normSq _ hw, ?_, ?_, ?_, ?_⟩
  · rw [dot_normalize_normalize]; positivity
  · rw [dot_normalize_normalize]; positivity
  · rw [dot_normalize_normalize]; positivity
  · rw [det_normalize_three]; positivity

theorem goldenT_gt_one : 1 < goldenT Real.sqrt := by
  unfold goldenT
  have h : (1 : ℝ) < Real.sqrt 5 := by
    rw [show (1 : ℝ) = Real.sqrt 1 by simp]
    exact Real.sqrt_lt_sqrt (by norm_num) (by norm_num)
  simp only [Nat.cast_one, Nat.cast_ofNat]
  linarith

section SeedInvariant

set_option maxHeartbeats 1600000

/-- Every face of the seed mesh satisfies the invariant. -/
theorem seedTriangle_good (j : ℕ) (hj : j < 20) (t : Vec3 ℝ × Vec3 ℝ × Vec3 ℝ)
    (h : seedTriangle (createIcosahedronVertices Real.sqrt) createIcosahedronFaces j = some t) :
    Good t.1 t.2.1 t.2.2 := by
  have hT := goldenT_gt_one
  generalize hTe : goldenT Real.sqrt = T at hT
  have h0 : 0 < T := by linarith
  have h2 : 1 < T * T := by nlinarith
  have h3 : 0 < T * (T * T) := by positivity
  simp only [createIcosahedronVertices, rawIcosahedronVertices, hTe, createIcosahedronFaces,
    seedTriangle] at h
  interval_cases j <;>
    simp at h <;>
    subst h <;>
    apply Good.normalize <;>
    simp [Vec3.normSq, Vec3.dot, Vec3.det, Vec3.cross] <;>
    first | positivity | linarith

end SeedInvariant

theorem triples_append {α : Type} : ∀ (l1 l2 : List α), l1.length % 3 = 0 →
    triples (l1 ++ l2) = triples l1 ++ triples l2
  | [], l2, _ => by simp [triples]
  | [_], _, h => by simp at h
  | [_, _], _, h => by simp at h
  | a :: b :: c :: rest, l2, h => by
    have hr : rest.length % 3 = 0 := by
      simp only [List.length_cons] at h
      omega
    simp [triples, triples_append rest l2 hr]

theorem triples_length {α : Type} : ∀ l : List α, (triples l).length = l.length / 3
  | [] => by simp [triples]
  | [_] => by simp [triples]
  | [_, _] => by simp [triples]
  | a :: b :: c :: rest => by
    simp only [triples, List.length_cons, triples_length rest]
    omega

/-- The winding test of a triangle is the sign of the determinant of its corners. -/
theorem outward_iff_det (a b c : Vec3 ℝ) : Outward a b c ↔ 0 < a.det b c := by
  have e : ((b.sub a).cross (c.sub a)).dot (centroid a b c) = a.det b c := by
    simp only [Vec3.det, Vec3.cross, Vec3.dot, Vec3.sub, centroid, Nat.cast_ofNat]
    ring
  rw [Outward, e]

/-- Over the reals the closed form keeps the invariant: every vertex has unit
length and every triangle satisfies `Good`. -/
theorem subdivision_good (n : ℕ) : ∀ a b c : Vec3 ℝ, Good a b c →
    (∀ v ∈ subdivision Real.sqrt n a b c, v.normSq = 1) ∧
    (∀ t ∈ triples (subdivision Real.sqrt n a b c), Good t.1 t.2.1 t.2.2) := by
  induction n with
  | zero =>
    intro a b c h
    constructor
    · intro v hv
      simp only [subdivision, List.mem_cons, List.mem_singleton, List.not_mem_nil,
        or_false] at hv
      rcases hv with rfl | rfl | rfl
      · exact h.1
      · exact h.2.1
      · exact h.2.2.1
    · intro t ht
      simp only [subdivision, triples, List.mem_singleton] at ht
      subst ht
      exact h
  | succ n ih =>
    intro a b c h
    obtain ⟨h1, h2, h3, h4⟩ := h.step
    have i1 := ih _ _ _ h1
    have i2 := ih _ _ _ h2
    have i3 := ih _ _ _ h3
    have i4 := ih _ _ _ h4
    have hm : ∀ x y z : Vec3 ℝ, (subdivision Real.sqrt n x y z).length % 3 = 0 := by
      intro x y z
      rw [subdivision_length]
      exact Nat.mul_mod_right 3 _
    constructor
    · intro v hv
      simp only [subdivision, List.mem_append] at hv
      rcases hv with hv | hv | hv | hv
      · exact i1.1 v hv
      · exact i2.1 v hv
      · exact i3.1 v hv
      · exact i4.1 v hv
    · intro t ht
      simp only [subdivision] at ht
      rw [triples_append _ _ (hm _ _ _), triples_append _ _ (hm _ _ _),
        triples_append _ _ (hm _ _ _)] at ht
      simp only [List.mem_append] at ht
      rcases ht with ht | ht | ht | ht
      · exact i1.2 t ht
      · exact i2.2 t ht
      · exact i3.2 t ht
      · exact i4.2 t ht

/-- The invariant on the concatenated closed forms of a list of triangles. -/
theorem subdivision_flatten_good (d : ℕ) (ts : List (Vec3 ℝ × Vec3 ℝ × Vec3 ℝ))
    (h : ∀ t ∈ ts, Good t.1 t.2.1 t.2.2) :
    (∀ v ∈ (ts.map fun t => subdivision Real.sqrt d t.1 t.2.1 t.2.2).flatten, v.normSq = 1) ∧
    (∀ t ∈ triples (ts.map fun t => subdivision Real.sqrt d t.1 t.2.1 t.2.2).flatten,
      Good t.1 t.2.1 t.2.2) := by
  induction ts with
  | nil =>
    constructor
    · intro v hv; simp at hv
    · intro t ht; simp [triples] at ht
  | cons s ts ih =>
    have hs := subdivision_good d s.1 s.2.1 s.2.2 (h s (List.mem_cons_self s ts))
    have hr := ih (fun t ht => h t (List.mem_cons_of_mem s ht))
    constructor
    · intro v hv
      simp only [List.map_cons, List.flatten_cons, List.mem_append] at hv
      rcases hv with hv | hv
      · exact hs.1 v hv
      · exact hr.1 v hv
    · intro t ht
      simp only [List.map_cons, List.flatten_cons] at ht
      rw [triples_append _ _ (by rw [subdivision_length]; exact Nat.mul_mod_right 3 _),
        List.mem_append] at ht
      rcases ht with ht | ht
      · exact hs.2 t ht
      · exact hr.2 t ht

theorem seedTriangles_good :
    ∀ t ∈ seedTriangles (createIcosahedronVertices Real.sqrt) createIcosahedronFaces,
      Good t.1 t.2.1 t.2.2 := by
  intro t ht
  simp only [seedTriangles, List.mem_filterMap, List.mem_range'_1] at ht
  obtain ⟨j, hj, hjt⟩ := ht
  have h20 : createIcosahedronFaces.length / 3 = 20 := rfl
  exact seedTriangle_good j (by omega) t hjt

/-- A vector of squared length 1 has length 1. -/
theorem length_of_normSq (v : Vec3 ℝ) (h : v.normSq = 1) : v.length Real.sqrt = 1 := by
  rw [Vec3.length, h, Real.sqrt_one]

/-- The normal loop of `main` is the map of the normalizer over the positions. -/
theorem icosphereNormals_eq_map {G : Type} (normalize : Vec3 G → Vec3 G) (V : List (Vec3 G)) :
    icosphereNormals normalize V = V.map normalize := by
  have h : ∀ (l acc : List (Vec3 G)),
      l.foldl (fun normals vertex => normals.concat (normalize vertex)) acc
        = acc ++ l.map normalize := by
    intro l
    induction l with
    | nil => intro acc; simp
    | cons a l ih => intro acc; rw [List.foldl_cons, ih]; simp
  simpa [icosphereNormals] using h V []

/-- C4. Over the reals, for every depth `d ≥ 0` every vertex of
`createIcosphere(d)` is a unit vector: `‖v‖ = 1` exactly, hence
`|‖v‖ - 1| ≤ 1e-5`.  The same holds for the twelve seed vertices. -/
theorem createIcosphere_unit (d k : ℕ) :
    (∀ v ∈ createIcosahedronVertices Real.sqrt, v.length Real.sqrt = 1) ∧
    ∃ out, createIcosphere Real.sqrt (d + 1 + k) (d : ℤ) = some out ∧
      ∀ v ∈ out, v.length Real.sqrt = 1 ∧ |v.length Real.sqrt - 1| ≤ 1e-5 := by
  constructor
  · intro v hv
    have hT := goldenT_gt_one
    generalize hTe : goldenT Real.sqrt = T at hT
    have hTT : 0 < T * T := by positivity
    simp only [createIcosahedronVertices, rawIcosahedronVertices, hTe, List.map_cons,
      List.map_nil, List.mem_cons, List.mem_singleton, List.not_mem_nil, or_false] at hv
    apply length_of_normSq
    rcases hv with h | h | h | h | h | h | h | h | h | h | h | h <;>
      subst h <;>
      apply normalize_normSq <;>
      simp [Vec3.normSq] <;>
      linarith
  · refine ⟨_, createIcosphere_eq Real.sqrt d k, ?_⟩
    intro v hv
    have h := (subdivision_flatten_good d _ seedTriangles_good).1 v hv
    have h1 := length_of_normSq v h
    rw [h1]
    norm_num

/-- C5. Over the reals, for every depth `d ≥ 0` every triangle `(a, b, c)` of
`createIcosphere(d)` is wound outward: `((b - a) × (c - a)) · (a + b + c)/3 > 0`.
The output has `20 * 4^d` triangles. -/
theorem createIcosphere_outward (d k : ℕ) :
    ∃ out, createIcosphere Real.sqrt (d + 1 + k) (d : ℤ) = some out ∧
      (triples out).length = 20 * 4 ^ d ∧
      ∀ t ∈ triples out, Outward t.1 t.2.1 t.2.2 := by
  refine ⟨_, createIcosphere_eq Real.sqrt d k, ?_, ?_⟩
  · rw [triples_length, subdivision_flatten_length, seedTriangles_length]
    omega
  · intro t ht
    have h := (subdivision_flatten_good d _ seedTriangles_good).2 t ht
    exact (outward_iff_det _ _ _).mpr h.2.2.2.2.2.2

/-- Over the reals `glm::normalize` fixes every vector of squared length 1. -/
theorem glmNormalize_unit (v : Vec3 ℝ) (h : v.normSq = 1) : glmNormalize Real.sqrt v = v := by
  have e : Real.sqrt (v.x * v.x + v.y * v.y + v.z * v.z) = 1 := by
    simp only [Vec3.normSq] at h
    rw [h, Real.sqrt_one]
  cases v
  simp only [glmNormalize] at *
  rw [e]
  simp

/-- C9, amended. For every scalar type and every normalizer the normal stream
has the length of the position stream and its entry `i` is the normalizer
applied to position `i`.  When the arithmetic is read over the reals, the
normal stream of `createIcosphere(d)` is the position stream itself for every
`d ≥ 0`, both with `v / ‖v‖` and with the formula of `glm::normalize`, each
being the identity on every emitted vertex.  In binary32 the copy is not
bit-exact. -/
theorem icosphereNormals_identity (d k : ℕ) :
    (∀ (G : Type) (normalize : Vec3 G → Vec3 G) (V : List (Vec3 G)),
      (icosphereNormals normalize V).length = V.length ∧
      ∀ i : ℕ, (icosphereNormals normalize V)[i]? = (V[i]?).map normalize) ∧
    ∃ out, createIcosphere Real.sqrt (d + 1 + k) (d : ℤ) = some out ∧
      (∀ v ∈ out, Vec3.normalize Real.sqrt v = v ∧ glmNormalize Real.sqrt v = v) ∧
      icosphereNormals (Vec3.normalize Real.sqrt) out = out ∧
      icosphereNormals (glmNormalize Real.sqrt) out = out := by
  constructor
  · intro G normalize V
    rw [icosphereNormals_eq_map]
    exact ⟨List.length_map _ _, fun i => List.getElem?_map _ _ _⟩
  · refine ⟨_, createIcosphere_eq Real.sqrt d k, ?_⟩
    have hn : ∀ v ∈ ((seedTriangles (createIcosahedronVertices Real.sqrt)
        createIcosahedronFaces).map fun t => subdivision Real.sqrt d t.1 t.2.1 t.2.2).flatten,
        v.normSq = 1 :=
      fun v hv => (subdivision_flatten_good d _ seedTriangles_good).1 v hv
    have hu : ∀ v ∈ ((seedTriangles (createIcosahedronVertices Real.sqrt)
        createIcosahedronFaces).map fun t => subdivision Real.sqrt d t.1 t.2.1 t.2.2).flatten,
        Vec3.normalize Real.sqrt v = v := fun v hv => normalize_unit v (hn v hv)
    have hg : ∀ v ∈ ((seedTriangles (createIcosahedronVertices Real.sqrt)
        createIcosahedronFaces).map fun t => subdivision Real.sqrt d t.1 t.2.1 t.2.2).flatten,
        glmNormalize Real.sqrt v = v := fun v hv => glmNormalize_unit v (hn v hv)
    refine ⟨fun v hv => ⟨hu v hv, hg v hv⟩, ?_, ?_⟩
    · rw [icosphereNormals_eq_map, List.map_congr_left (g := fun v => v) hu, List.map_id']
    · rw [icosphereNormals_eq_map, List.map_congr_left (g := fun v => v) hg, List.map_id']

end Metric

section Refinement

variable [Add F] [Mul F] [Div F]

/-- Refining a concatenation whose first part is a whole number of triangles. -/
theorem refineLevel_append (sqrt : F → F) (l1 l2 : List (Vec3 F)) (h : l1.length % 3 = 0) :
    refineLevel sqrt (l1 ++ l2) = refineLevel sqrt l1 ++ refineLevel sqrt l2 := by
  rw [refineLevel, triples_append l1 l2 h, List.flatMap_append]
  rfl

/-- One more level of recursion is one refinement of the leaves. -/
theorem subdivision_succ_eq_refineLevel (sqrt : F → F) (n : ℕ) :
    ∀ v1 v2 v3 : Vec3 F,
      subdivision sqrt (n + 1) v1 v2 v3 = refineLevel sqrt (subdivision sqrt n v1 v2 v3) := by
  induction n with
  | zero =>
    intro v1 v2 v3
    simp [subdivision, refineLevel, triples]
  | succ n ih =>
    intro v1 v2 v3
    have hm : ∀ x y z : Vec3 F, (subdivision sqrt n x y z).length % 3 = 0 := by
      intro x y z
      rw [subdivision_length]
      exact Nat.mul_mod_right 3 _
    rw [subdivision, ih, ih, ih, ih]
    conv_rhs => rw [subdivision]
    rw [refineLevel_append sqrt _ _ (hm _ _ _), refineLevel_append sqrt _ _ (hm _ _ _),
      refineLevel_append sqrt _ _ (hm _ _ _)]

/-- The recursive closed form is the iterative formulation. -/
theorem subdivision_eq_subdivideIterative (sqrt : F → F) (n : ℕ) (v1 v2 v3 : Vec3 F) :
    subdivision sqrt n v1 v2 v3 = subdivideIterative sqrt n v1 v2 v3 := by
  induction n with
  | zero => rfl
  | succ n ih => rw [subdivision_succ_eq_refineLevel, ih, subdivideIterative]

/-- C14. The recursive kernel equals the iterative level-by-level refinement:
for every triangle and every `d ≥ 0`, with a stack budget above `d + 1`, the
output of `subdivide` at depth `d + 1` is the output at depth `d` with every
triangle replaced, in order, by its four one-step sub-triangles; and the output
at depth `d` is the `d`-level iterative refinement of the input triangle. -/
theorem subdivide_eq_iterative (sqrt : F → F) (d k : ℕ) (out : List (Vec3 F))
    (v1 v2 v3 : Vec3 F) :
    ∃ r r1,
      subdivide sqrt (d + 2 + k) out v1 v2 v3 (d : ℤ) = some (out ++ r) ∧
      subdivide sqrt (d + 2 + k) out v1 v2 v3 ((d : ℤ) + 1) = some (out ++ r1) ∧
      r1 = refineLevel sqrt r ∧
      r = subdivideIterative sqrt d v1 v2 v3 ∧
      r1 = subdivideIterative sqrt (d + 1) v1 v2 v3 := by
  refine ⟨subdivision sqrt d v1 v2 v3, subdivision sqrt (d + 1) v1 v2 v3, ?_, ?_, ?_, ?_, ?_⟩
  · have h := subdivide_eq sqrt d (k + 1) out v1 v2 v3
    rw [show d + 1 + (k + 1) = d + 2 + k by ring] at h
    exact h
  · have h := subdivide_eq sqrt (d + 1) k out v1 v2 v3
    rw [Nat.cast_succ] at h
    exact h
  · exact subdivision_succ_eq_refineLevel sqrt d v1 v2 v3
  · exact subdivision_eq_subdivideIterative sqrt d v1 v2 v3
  · exact subdivision_eq_subdivideIterative sqrt (d + 1) v1 v2 v3

/-- C12. The projected midpoint does not depend on the order of its endpoints:
when the scalar addition is commutative (as IEEE-754 addition and real addition
are), `(a + b).normalize() = (b + a).normalize()`; so two triangles that share
the edge `a b`, traversed in opposite directions, get the same midpoint vertex
from `subdivide`. -/
theorem midpoint_comm (sqrt : F → F) (hcomm : ∀ x y : F, x + y = y + x) (a b : Vec3 F) :
    (a.add b).normalize sqrt = (b.add a).normalize sqrt ∧
    ∀ (w1 w2 : Vec3 F) (k : ℕ), ∃ r1 r2,
      subdivide sqrt (k + 2) [] a b w1 1 = some r1 ∧
      subdivide sqrt (k + 2) [] b a w2 1 = some r2 ∧
      r1[1]? = some ((a.add b).normalize sqrt) ∧
      r2[1]? = some ((b.add a).normalize sqrt) ∧
      r1[1]? = r2[1]? := by
  have hadd : a.add b = b.add a := by
    simp only [Vec3.add]
    rw [hcomm a.x b.x, hcomm a.y b.y, hcomm a.z b.z]
  refine ⟨by rw [hadd], ?_⟩
  intro w1 w2 k
  have h1 := subdivide_eq sqrt 1 k [] a b w1
  have h2 := subdivide_eq sqrt 1 k [] b a w2
  rw [show 1 + 1 + k = k + 2 by ring, Nat.cast_one] at h1 h2
  refine ⟨_, _, h1, h2, ?_, ?_, ?_⟩
  · simp [subdivision]
  · simp [subdivision]
  · simp [subdivision, hadd]

/-- Instance of `midpoint_comm` over the rationals. -/
theorem midpoint_comm_witness :
    (∀ x y : ℚ, x + y = y + x) ∧
    ((⟨1, 2, 3⟩ : Vec3 ℚ).add ⟨4, 5, 6⟩).normalize Rat.sqrt
      = ((⟨4, 5, 6⟩ : Vec3 ℚ).add ⟨1, 2, 3⟩).normalize Rat.sqrt :=
  ⟨fun x y => add_comm x y,
    (midpoint_comm Rat.sqrt (fun x y => add_comm x y) ⟨1, 2, 3⟩ ⟨4, 5, 6⟩).1⟩

/-- With a stack budget above the depth, the instrumented `subdivide` extends
both components of its state by the closed forms. -/
theorem subdivideTraced_eq (sqrt : F → F) (n k : ℕ) :
    ∀ (s : List (Vec3 F) × List (Vec3 F)) (v1 v2 v3 : Vec3 F),
      subdivideTraced sqrt (n + 1 + k) s v1 v2 v3 (n : ℤ)
        = some (s.1 ++ subdivision sqrt n v1 v2 v3, s.2 ++ normalizedBy sqrt n v1 v2 v3) := by
  induction n with
  | zero =>
    intro s v1 v2 v3
    have : 0 + 1 + k = k + 1 := by omega
    rw [this]
    simp [subdivideTraced, subdivision, normalizedBy]
  | succ n ih =>
    intro s v1 v2 v3
    have h1 : n + 1 + 1 + k = (n + 1 + k) + 1 := by omega
    have h2 : ((n + 1 : ℕ) : ℤ) ≠ 0 := by omega
    have h3 : ((n + 1 : ℕ) : ℤ) - 1 = (n : ℤ) := by omega
    rw [h1, subdivideTraced, if_neg h2, h3]
    simp [ih, subdivision, normalizedBy, List.append_assoc]

/-- The instrumented run over a list of triangles. -/
theorem foldlM_subdivideTraced (sqrt : F → F) (d k : ℕ)
    (ts : List (Vec3 F × Vec3 F × Vec3 F)) :
    ∀ s : List (Vec3 F) × List (Vec3 F),
      ts.foldlM (fun s t => subdivideTraced sqrt (d + 1 + k) s t.1 t.2.1 t.2.2 (d : ℤ)) s
        = some (s.1 ++ (ts.map fun t => subdivision sqrt d t.1 t.2.1 t.2.2).flatten,
            s.2 ++ (ts.map fun t => normalizedBy sqrt d t.1 t.2.1 t.2.2).flatten) := by
  induction ts with
  | nil => intro s; simp
  | cons t ts ih =>
    intro s
    rw [List.foldlM_cons, subdivideTraced_eq]
    simp [ih, List.append_assoc]

/-- The number of vectors normalized by `subdivide` at depth `n`. -/
theorem normalizedBy_length (sqrt : F → F) (n : ℕ) :
    ∀ v1 v2 v3 : Vec3 F, (normalizedBy sqrt n v1 v2 v3).length + 1 = 4 ^ n := by
  induction n with
  | zero => intro v1 v2 v3; simp [normalizedBy]
  | succ n ih =>
    intro v1 v2 v3
    have e1 := ih v1 ((v1.add v2).normalize sqrt) ((v3.add v1).normalize sqrt)
    have e2 := ih v2 ((v2.add v3).normalize sqrt) ((v1.add v2).normalize sqrt)
    have e3 := ih v3 ((v3.add v1).normalize sqrt) ((v2.add v3).normalize sqrt)
    have e4 := ih ((v1.add v2).normalize sqrt) ((v2.add v3).normalize sqrt)
      ((v3.add v1).normalize sqrt)
    simp only [normalizedBy, List.length_append, List.length_cons, List.length_nil]
    rw [pow_succ]
    omega

/-- The number of vectors normalized over a list of triangles. -/
theorem normalizedBy_flatten_length (sqrt : F → F) (d : ℕ)
    (ts : List (Vec3 F × Vec3 F × Vec3 F)) :
    ((ts.map fun t => normalizedBy sqrt d t.1 t.2.1 t.2.2).flatten).length + ts.length
      = ts.length * 4 ^ d := by
  induction ts with
  | nil => simp
  | cons t ts ih =>
    have e := normalizedBy_length sqrt d t.1 t.2.1 t.2.2
    simp only [List.map_cons, List.flatten_cons, List.length_append, List.length_cons]
    rw [Nat.add_mul]
    omega

end Refinement

section NonDegenerate

/-- Corners of a triangle with a positive determinant are pairwise distinct. -/
theorem distinct_of_det_pos {a b c : Vec3 ℝ} (h : 0 < a.det b c) :
    a ≠ b ∧ b ≠ c ∧ c ≠ a := by
  refine ⟨?_, ?_, ?_⟩
  · rintro rfl
    have e : a.det a c = 0 := by
      simp only [Vec3.det, Vec3.cross, Vec3.dot]; ring
    rw [e] at h
    exact lt_irrefl _ h
  · rintro rfl
    have e : a.det b b = 0 := by
      simp only [Vec3.det, Vec3.cross, Vec3.dot]; ring
    rw [e] at h
    exact lt_irrefl _ h
  · rintro rfl
    have e : c.det b c = 0 := by
      simp only [Vec3.det, Vec3.cross, Vec3.dot]; ring
    rw [e] at h
    exact lt_irrefl _ h

/-- Distinct points are at a positive distance. -/
theorem length_sub_pos {a b : Vec3 ℝ} (h : a ≠ b) : 0 < (a.sub b).length Real.sqrt := by
  apply Real.sqrt_pos.mpr
  simp only [Vec3.normSq, Vec3.sub]
  by_contra hn
  have hx : a.x - b.x = 0 := by
    nlinarith [mul_self_nonneg (a.x - b.x), mul_self_nonneg (a.y - b.y),
      mul_self_nonneg (a.z - b.z)]
  have hy : a.y - b.y = 0 := by
    nlinarith [mul_self_nonneg (a.x - b.x), mul_self_nonneg (a.y - b.y),
      mul_self_nonneg (a.z - b.z)]
  have hz : a.z - b.z = 0 := by
    nlinarith [mul_self_nonneg (a.x - b.x), mul_self_nonneg (a.y - b.y),
      mul_self_nonneg (a.z - b.z)]
  apply h
  cases a
  cases b
  simp only [Vec3.mk.injEq]
  exact ⟨by linarith, by linarith, by linarith⟩

/-- C11. Over the reals, for every depth `d ≥ 0` no triangle `(a, b, c)` of
`createIcosphere(d)` is degenerate: its corners are pairwise distinct and
`‖a - b‖ > 0`, `‖b - c‖ > 0`, `‖c - a‖ > 0`. -/
theorem createIcosphere_nondegenerate (d k : ℕ) :
    ∃ out, createIcosphere Real.sqrt (d + 1 + k) (d : ℤ) = some out ∧
      (triples out).length = 20 * 4 ^ d ∧
      ∀ t ∈ triples out,
        (t.1 ≠ t.2.1 ∧ t.2.1 ≠ t.2.2 ∧ t.2.2 ≠ t.1) ∧
        0 < (t.1.sub t.2.1).length Real.sqrt ∧
        0 < (t.2.1.sub t.2.2).length Real.sqrt ∧
        0 < (t.2.2.sub t.1).length Real.sqrt := by
  refine ⟨_, createIcosphere_eq Real.sqrt d k, ?_, ?_⟩
  · rw [triples_length, subdivision_flatten_length, seedTriangles_length]
    omega
  · intro t ht
    have h := (subdivision_flatten_good d _ seedTriangles_good).2 t ht
    have hd := distinct_of_det_pos h.2.2.2.2.2.2
    exact ⟨hd, length_sub_pos hd.1, length_sub_pos hd.2.1, length_sub_pos hd.2.2⟩

/-- Over the reals, every vector normalized inside a triangle that satisfies
the invariant is non-zero. -/
theorem normalizedBy_pos (n : ℕ) : ∀ a b c : Vec3 ℝ, Good a b c →
    ∀ v ∈ normalizedBy Real.sqrt n a b c, 0 < v.normSq := by
  induction n with
  | zero => intro a b c _ v hv; simp [normalizedBy] at hv
  | succ n ih =>
    intro a b c h v hv
    obtain ⟨h1, h2, h3, h4⟩ := h.step
    obtain ⟨ha, hb, hc, hab, hbc, hca, _⟩ := h
    simp only [normalizedBy, List.mem_append, List.mem_cons, List.mem_singleton,
      List.not_mem_nil, or_false] at hv
    rcases hv with (rfl | rfl | rfl) | hv | hv | hv | hv
    · rw [normSq_add a b ha hb]; linarith
    · rw [normSq_add b c hb hc]; linarith
    · rw [normSq_add c a hc ha]; linarith
    · exact ih _ _ _ h1 v hv
    · exact ih _ _ _ h2 v hv
    · exact ih _ _ _ h3 v hv
    · exact ih _ _ _ h4 v hv

/-- The twelve vectors normalized by `createIcosahedronVertices` are non-zero. -/
theorem rawIcosahedronVertices_pos :
    ∀ v ∈ rawIcosahedronVertices (goldenT Real.sqrt), 0 < v.normSq := by
  intro v hv
  have hT := goldenT_gt_one
  generalize goldenT Real.sqrt = T at hT hv
  have hTT : 0 < T * T := by positivity
  simp only [rawIcosahedronVertices, List.mem_cons, List.mem_singleton, List.not_mem_nil,
    or_false] at hv
  rcases hv with h | h | h | h | h | h | h | h | h | h | h | h <;>
    subst h <;>
    simp [Vec3.normSq] <;>
    linarith

/-- C13. Over the reals `normalize` is never applied to the zero vector while
an icosphere is generated: for every depth `d ≥ 0` the instrumented run
returns the output of `createIcosphere(d)` together with the
`12 + 20 * (4^d - 1)` vectors that were normalized (the twelve seed vectors and
the three edge sums of every call of `subdivide` with `depth != 0`), and every
one of them has a non-zero length. -/
theorem createIcosphere_normalize_defined (d k : ℕ) :
    ∃ out normalized,
      createIcosphereTraced Real.sqrt (d + 1 + k) (d : ℤ) = some (out, normalized) ∧
      createIcosphere Real.sqrt (d + 1 + k) (d : ℤ) = some out ∧
      normalized.length = 12 + 20 * (4 ^ d - 1) ∧
      ∀ v ∈ normalized, 0 < v.length Real.sqrt ∧ v.length Real.sqrt ≠ 0 := by
  have hrun := foldlM_subdivideTraced Real.sqrt d k
    (seedTriangles (createIcosahedronVertices Real.sqrt) createIcosahedronFaces)
    ([], rawIcosahedronVertices (goldenT Real.sqrt))
  refine ⟨_, _, hrun, ?_, ?_, ?_⟩
  · rw [createIcosphere_eq]; rfl
  · have hl := normalizedBy_flatten_length Real.sqrt d
      (seedTriangles (createIcosahedronVertices Real.sqrt) createIcosahedronFaces)
    rw [seedTriangles_length] at hl
    have h4 : 0 < 4 ^ d := pow_pos (by norm_num : (0 : ℕ) < 4) d
    simp only [List.length_append]
    have hr : (rawIcosahedronVertices (goldenT Real.sqrt)).length = 12 := rfl
    rw [hr]
    omega
  · intro v hv
    have hp : 0 < v.normSq := by
      simp only [List.mem_append, List.mem_flatten, List.mem_map] at hv
      rcases hv with hv | ⟨l, ⟨t, ht, rfl⟩, hv⟩
      · exact rawIcosahedronVertices_pos v hv
      · exact normalizedBy_pos d _ _ _ (seedTriangles_good t ht) v hv
    have hl : 0 < v.length Real.sqrt := Real.sqrt_pos.mpr hp
    exact ⟨hl, ne_of_gt hl⟩

end NonDegenerate

section Binary32

/-- The golden-ratio constant of `createIcosahedronVertices` in binary32. -/
theorem goldenT_binary32 :
    goldenT F32.sqrt = F32.finite false 127 13573053 ∧
    F32.bits (goldenT F32.sqrt) = 0x3fcf1bbd := by
  decide

/-- The seed vertex table in binary32. -/
theorem createIcosahedronVertices_binary32 :
    createIcosahedronVertices F32.sqrt =
      [ ⟨.finite true 126 8820304, .finite false 126 14271552, .finite false 0 0⟩,
        ⟨.finite false 126 8820304, .finite false 126 14271552, .finite false 0 0⟩,
        ⟨.finite true 126 8820304, .finite true 126 14271552, .finite false 0 0⟩,
        ⟨.finite false 126 8820304, .finite true 126 14271552, .finite false 0 0⟩,
        ⟨.finite false 0 0, .finite true 126 8820304, .finite false 126 14271552⟩,
        ⟨.finite false 0 0, .finite false 126 8820304, .finite false 126 14271552⟩,
        ⟨.finite false 0 0, .finite true 126 8820304, .finite true 126 14271552⟩,
        ⟨.finite false 0 0, .finite false 126 8820304, .finite true 126 14271552⟩,
        ⟨.finite false 126 14271552, .finite false 0 0, .finite true 126 8820304⟩,
        ⟨.finite false 126 14271552, .finite false 0 0, .finite false 126 8820304⟩,
        ⟨.finite true 126 14271552, .finite false 0 0, .finite true 126 8820304⟩,
        ⟨.finite true 126 14271552, .finite false 0 0, .finite false 126 8820304⟩ ] := by
  decide

/-- In binary32 neither normalizer fixes any seed vertex. -/
theorem normalize_seed_binary32 :
    ∀ v ∈ createIcosahedronVertices F32.sqrt,
      Vec3.normalize F32.sqrt v ≠ v ∧ glmNormalize F32.sqrt v ≠ v := by
  rw [createIcosahedronVertices_binary32]
  decide

/-- C9, counterexample. In binary32 the normal stream of `createIcosphere(0)`
is not the position stream: the first position is the seed vertex with bit
patterns `bf069650, 3f59c440, 00000000`, `normalize()` sends it to
`bf069651, 3f59c441, 00000000` and the formula of `glm::normalize` to
`bf069651, 3f59c442, 00000000`; no vertex of the 60 is fixed by either
normalizer. -/
theorem icosphereNormals_binary32 :
    ∃ out, createIcosphere F32.sqrt 1 0 = some out ∧ out.length = 60 ∧
      out[0]? = some ⟨.finite true 126 8820304, .finite false 126 14271552,
        .finite false 0 0⟩ ∧
      Vec3.normalize F32.sqrt ⟨.finite true 126 8820304, .finite false 126 14271552,
        .finite false 0 0⟩
        = ⟨.finite true 126 8820305, .finite false 126 14271553, .finite false 0 0⟩ ∧
      glmNormalize F32.sqrt ⟨.finite true 126 8820304, .finite false 126 14271552,
        .finite false 0 0⟩
        = ⟨.finite true 126 8820305, .finite false 126 14271554, .finite false 0 0⟩ ∧
      (∀ v ∈ out, Vec3.normalize F32.sqrt v ≠ v ∧ glmNormalize F32.sqrt v ≠ v) ∧
      icosphereNormals (Vec3.normalize F32.sqrt) out ≠ out ∧
      icosphereNormals (glmNormalize F32.sqrt) out ≠ out := by
  obtain ⟨out, h1, h2⟩ := createIcosphere_depth0_map F32.sqrt 0
  have hlen : out.length = 60 := by
    have := congrArg List.length h2
    simpa [createIcosahedronFaces] using this
  have hmem : ∀ v ∈ out, v ∈ createIcosahedronVertices F32.sqrt := by
    intro v hv
    have hs : some v ∈ out.map some := List.mem_map_of_mem some hv
    rw [h2, List.mem_map] at hs
    obtain ⟨i, _, hi⟩ := hs
    exact List.getElem?_mem hi
  have hfix : ∀ v ∈ out, Vec3.normalize F32.sqrt v ≠ v ∧ glmNormalize F32.sqrt v ≠ v :=
    fun v hv => normalize_seed_binary32 v (hmem v hv)
  have h0 : out[0]? = some ⟨.finite true 126 8820304, .finite false 126 14271552,
      .finite false 0 0⟩ := by
    have hg : (out[0]?).map some = ((out.map some)[0]?) := (List.getElem?_map some out 0).symm
    rw [h2, List.getElem?_map, createIcosahedronVertices_binary32] at hg
    match out, hlen, hg with
    | a :: rest, _, hg =>
      simp [createIcosahedronFaces] at hg
      simp [hg]
  have hne : ∀ f : Vec3 F32 → Vec3 F32, (∀ v ∈ out, f v ≠ v) →
      icosphereNormals f out ≠ out := by
    intro f hf h
    rw [icosphereNormals_eq_map] at h
    have hv := List.getElem?_mem h0
    have e := congrArg (fun l => l[0]?) h
    simp only [List.getElem?_map, h0, Option.map_some', Option.some.injEq] at e
    exact hf _ hv e
  exact ⟨out, h1, hlen, h0, by decide, by decide, hfix,
    hne _ (fun v hv => (hfix v hv).1), hne _ (fun v hv => (hfix v hv).2)⟩

end Binary32

end SphereEngine
